import Mathlib

/-!
Verification of the shellbuddy rule-dispatch engine and orchestration layer.

Shallow embedding of:
  * `src/kb_engine.py`   — `KBEngine.load`, `KBEngine.scan`, `KBEngine.get_hints`
  * `src/scripts/hint_daemon.py` — `ctx_append`, `ctx_read`, `handle_tip_query`,
    and the single-flight background-task guards of `run`.

Python strings are modelled as Lean `String` (a list of characters); regex
compilation and matching are modelled generically: the definitions take a
`compile : String → Option P` function (modelling `re.compile`, `none` on
`re.error`) and a `search : P → String → Bool` function (modelling
`compiled.search(cmd) is not None`).  Theorems quantify over these, and
witnesses instantiate them with concrete total functions (e.g. literal
substring search, which is exactly `re.search` for metacharacter-free
patterns).  Wall-clock times (`time.time()`) are modelled as integers.
-/

namespace ShellBuddy

/-! ## Python string primitives -/

/-- Whitespace test used by Python `str.split()` / `str.strip()`. -/
def isWs (c : Char) : Bool := c.isWhitespace

/-- Python `str.lower()` (ASCII model). -/
def pyLower (s : String) : String := ⟨s.data.map Char.toLower⟩

/-- Python `str.strip()`: drop leading and trailing whitespace. -/
def pyStrip (s : String) : String :=
  ⟨((s.data.dropWhile isWs).reverse.dropWhile isWs).reverse⟩

/-- Helper for `pyWords`: split a character list on whitespace runs,
accumulating the current word in reverse. -/
def splitWsAux : List Char → List Char → List (List Char)
  | [], acc => if acc.isEmpty then [] else [acc.reverse]
  | c :: cs, acc =>
    if isWs c then
      if acc.isEmpty then splitWsAux cs [] else acc.reverse :: splitWsAux cs []
    else
      splitWsAux cs (c :: acc)

/-- Python `str.split()` with no separator: split on whitespace runs,
no empty words. -/
def pyWords (s : String) : List String :=
  (splitWsAux s.data []).map (fun l => ⟨l⟩)

/-- Python slice `s[:n]` (by characters). -/
def pyTake (n : Nat) (s : String) : String := ⟨s.data.take n⟩

/-- Python `"=" in s`. -/
def containsEq (s : String) : Bool := s.data.any (fun c => c == '=')

/-- Python `s.isalpha()` restricted to ASCII: nonempty and all letters. -/
def pyIsAlpha (s : String) : Bool := !s.data.isEmpty && s.data.all Char.isAlpha

/-! ## Rule entries and the engine state (`KBEngine.__init__` / `load`) -/

/-- One rule record of the corpus (`kb.json` entry), with the fields the
engine reads: `id`, `cmd`, `pattern`, `severity`, `hint`, `detail`. -/
structure RuleEntry where
  id : String
  cmd : String
  pattern : String
  severity : String
  hint : String
  detail : String
deriving DecidableEq

/-- Engine state after `load`: `_buckets` (an insertion-ordered dict of
lists, modelled as an association list), `_generic`, and the `bad` counter
of invalid patterns skipped. -/
structure KBState (P : Type) where
  buckets : List (String × List (P × RuleEntry))
  generic : List (P × RuleEntry)
  bad : Nat

/-- `self._buckets.get(token, [])`. -/
def bucketsGet {P : Type} (bs : List (String × List (P × RuleEntry))) (k : String) :
    List (P × RuleEntry) :=
  (bs.lookup k).getD []

/-- `self._buckets[token].append(rule)` on a `defaultdict(list)`:
append to the existing bucket, or create a new bucket at the end. -/
def bucketsAdd {P : Type} (bs : List (String × List (P × RuleEntry))) (k : String)
    (r : P × RuleEntry) : List (String × List (P × RuleEntry)) :=
  match bs with
  | [] => [(k, [r])]
  | (k', l) :: rest =>
    if k' = k then (k', l ++ [r]) :: rest else (k', l) :: bucketsAdd rest k r

/-- The token-characters class of the fallback extraction regex:
`[a-zA-Z0-9_-]`. -/
def isTokChar (c : Char) : Bool := c.isAlphanum || c = '_' || c = '-'

/-- `re.match(r'^\^?\(?([a-zA-Z][a-zA-Z0-9_-]*)', pattern)` from
`KBEngine.load`: optionally skip a leading `^`, then optionally a leading
`(`, then require a letter followed by token characters; return the
captured group. -/
def patternTok (pat : String) : Option String :=
  let l := pat.data
  let l := match l with | '^' :: t => t | other => other
  let l := match l with | '(' :: t => t | other => other
  match l with
  | c :: t => if c.isAlpha then some ⟨c :: t.takeWhile isTokChar⟩ else none
  | [] => none

/-- One iteration of the `for entry in data` loop of `KBEngine.load`:
compile the pattern (skip and count on failure), then route the rule to
the bucket of its `cmd` token, else the bucket of the token extracted
from the pattern, else `_generic`. -/
def loadStep {P : Type} (compile : String → Option P) (st : KBState P)
    (e : RuleEntry) : KBState P :=
  match compile e.pattern with
  | none => { st with bad := st.bad + 1 }
  | some cp =>
    let tok := pyLower (pyStrip e.cmd)
    if pyIsAlpha tok then
      { st with buckets := bucketsAdd st.buckets tok (cp, e) }
    else
      match patternTok e.pattern with
      | some t => { st with buckets := bucketsAdd st.buckets (pyLower t) (cp, e) }
      | none => { st with generic := st.generic ++ [(cp, e)] }

/-- `KBEngine.load(path)` after the JSON decode: fold the rule records
into an empty engine state. -/
def load {P : Type} (compile : String → Option P) (entries : List RuleEntry) :
    KBState P :=
  entries.foldl (loadStep compile) ⟨[], [], 0⟩

/-- All loaded rules of the engine, buckets first then generic
(the full corpus held by the state). -/
def ruleList {P : Type} (st : KBState P) : List (P × RuleEntry) :=
  (st.buckets.map (fun b => b.2)).flatten ++ st.generic

/-- `self._count`: total number of loaded rules. -/
def countRules {P : Type} (st : KBState P) : Nat := (ruleList st).length

/-! ## Token extraction and `scan` -/

/-- The token-selection logic of `KBEngine.scan` on the (nonempty) word
list of the stripped command: first word lowercased; if it is `sudo` and
a second word exists, that second word lowercased; if the chosen token
contains `=`, the first word of the whole command containing no `=`
(lowercased), falling back to the chosen token. -/
def extractToken (parts : List String) : String :=
  match parts with
  | [] => ""
  | t0 :: rest =>
    let f0 := pyLower t0
    let f1 := match rest with
      | r :: _ => if f0 = "sudo" then pyLower r else f0
      | [] => f0
    if containsEq f1 then
      match parts.find? (fun p => !containsEq p) with
      | some p => pyLower p
      | none => f1
    else f1

/-- `KBEngine.scan(cmd)`: strip; empty commands match nothing; otherwise
evaluate the token bucket plus the generic bucket, in order, against the
full (stripped) command text. -/
def scan {P : Type} (search : P → String → Bool) (st : KBState P) (cmd : String) :
    List RuleEntry :=
  let c := pyStrip cmd
  if c.data.isEmpty then []
  else
    let tok := extractToken (pyWords c)
    let candidates := bucketsGet st.buckets tok ++ st.generic
    (candidates.filter (fun pe => search pe.1 c)).map (fun pe => pe.2)

/-- Brute-force reference scan: evaluate every compiled rule of the corpus
against the command text, keeping the matching rules. -/
def bruteForce {P : Type} (search : P → String → Bool)
    (rules : List (P × RuleEntry)) (c : String) : List RuleEntry :=
  (rules.filter (fun pe => search pe.1 c)).map (fun pe => pe.2)

/-! ## Hint ranking and rendering (`KBEngine.get_hints`) -/

/-- `SEVERITY_PREFIX.get(severity, "   ")` from `kb_engine.py`. -/
def sevMark (s : String) : String :=
  if s = "danger" then "!! "
  else if s = "warn" then "!  "
  else if s = "tip" then "-> "
  else if s = "upgrade" then "=> "
  else "   "

/-- `re.sub(r"^\S+\s*", "", s)`: remove a leading run of non-whitespace
characters and the following whitespace run; if the string does not start
with a non-whitespace character the substitution does not apply. -/
def subLeadingTok (s : String) : String :=
  match s.data with
  | [] => ""
  | c :: cs =>
    if isWs c then s
    else ⟨(cs.dropWhile (fun x => !isWs x)).dropWhile isWs⟩

/-- The `arg` value of `get_hints`:
`re.sub(r"^\S+\s*", "", example.strip())[:40]`. -/
def hintArg (ex : String) : String := pyTake 40 (subLeadingTok (pyStrip ex))

/-- Python `s.replace("{arg}", new)`: left-to-right non-overlapping
replacement of every occurrence of the placeholder. -/
def replaceArgTag (new : List Char) : List Char → List Char
  | '{' :: 'a' :: 'r' :: 'g' :: '}' :: rest => new ++ replaceArgTag new rest
  | c :: cs => c :: replaceArgTag new cs
  | [] => []

/-- `entry["hint"].replace("{arg}", arg or "...")`. -/
def hintText (entry : RuleEntry) (ex : String) : String :=
  let arg := hintArg ex
  ⟨replaceArgTag (if arg.data.isEmpty then "...".data else arg.data) entry.hint.data⟩

/-- The formatted hint string `f"{prefix}[{count}x] {hint_text}"`. -/
def renderHint (cnt : Nat) (entry : RuleEntry) (ex : String) : String :=
  sevMark entry.severity ++ "[" ++ toString cnt ++ "x] " ++ hintText entry ex

/-- `freq[rid] += 1` on a `Counter` (insertion-ordered dict, missing keys
start at 0). -/
def bumpFreq (freq : List (String × Nat)) (k : String) : List (String × Nat) :=
  match freq with
  | [] => [(k, 1)]
  | (k', n) :: rest =>
    if k' = k then (k', n + 1) :: rest else (k', n) :: bumpFreq rest k

/-- `matched[rid] = v` on an insertion-ordered dict: overwrite in place or
append a new key at the end. -/
def setAssoc {α : Type} (m : List (String × α)) (k : String) (v : α) :
    List (String × α) :=
  match m with
  | [] => [(k, v)]
  | (k', v') :: rest =>
    if k' = k then (k', v) :: rest else (k', v') :: setAssoc rest k v

/-- The inner `for entry in self.scan(cmd)` loop body of `get_hints`:
bump the frequency of the rule id and record `(entry, cmd)` as its
most recent match. -/
def tallyStep {P : Type} (search : P → String → Bool) (st : KBState P)
    (acc : List (String × Nat) × List (String × (RuleEntry × String)))
    (cmd : String) :
    List (String × Nat) × List (String × (RuleEntry × String)) :=
  (scan search st cmd).foldl
    (fun fm e => (bumpFreq fm.1 e.id, setAssoc fm.2 e.id (e, cmd))) acc

/-- The `for item in recent_cmds` loop of `get_hints`, building `freq`
and `matched`.  The recent window is modelled as the list of its command
strings (`item.get("cmd", "")`). -/
def tally {P : Type} (search : P → String → Bool) (st : KBState P)
    (recent : List String) :
    List (String × Nat) × List (String × (RuleEntry × String)) :=
  recent.foldl (tallyStep search st) ([], [])

/-- Stable insertion for a descending-by-count sort: place `x` before the
first element with a smaller-or-equal count, so that elements earlier in
the original order stay first among equal counts. -/
def insertDesc (x : String × Nat) : List (String × Nat) → List (String × Nat)
  | [] => [x]
  | y :: ys => if y.2 ≤ x.2 then x :: y :: ys else y :: insertDesc x ys

/-- `Counter.most_common()`: the frequency pairs sorted by descending
count, stable with respect to first-insertion order (Python `sorted` is
stable, also with `reverse=True`). -/
def mostCommon (freq : List (String × Nat)) : List (String × Nat) :=
  freq.foldr insertDesc []

/-- `last_shown.get(rid, 0)`. -/
def lastGet (m : List (String × Int)) (k : String) : Int := (m.lookup k).getD 0

/-- The selection loop of `get_hints`: walk the `most_common` list, stop
once 3 hints are collected, skip a rule whose cooldown has not elapsed
unless its severity is `danger`, and render the surviving rules.  `k` is
`len(hints)` so far. -/
def selectHints (matched : List (String × (RuleEntry × String)))
    (lastShown : List (String × Int)) (cooldown now : Int) :
    List (String × Nat) → Nat → List (String × String × RuleEntry)
  | [], _ => []
  | (rid, cnt) :: rest, k =>
    if 3 ≤ k then []
    else
      match matched.lookup rid with
      | none => selectHints matched lastShown cooldown now rest k
      | some (entry, ex) =>
        if now - lastGet lastShown rid < cooldown ∧ entry.severity ≠ "danger" then
          selectHints matched lastShown cooldown now rest k
        else
          (rid, renderHint cnt entry ex, entry) ::
            selectHints matched lastShown cooldown now rest (k + 1)

/-- `KBEngine.get_hints(recent_cmds, last_shown, cooldown)` at wall-clock
time `now`: returns the list of `(rule_id, formatted_hint, entry)` for
the top (at most 3) matches, respecting per-rule cooldown except for
`danger` rules. -/
def getHints {P : Type} (search : P → String → Bool) (st : KBState P)
    (recent : List String) (lastShown : List (String × Int))
    (cooldown now : Int) : List (String × String × RuleEntry) :=
  let fm := tally search st recent
  selectHints fm.2 lastShown cooldown now (mostCommon fm.1) 0

/-- The projection of the tally loop onto one rule id: the fold that
keeps the last `(entry, cmd)` recorded for `rid` while walking the
window — i.e. the most recent command that matched a rule with this id,
together with the matching rule. -/
def lastMatchStep {P : Type} (search : P → String → Bool) (st : KBState P)
    (rid : String) (acc : Option (RuleEntry × String)) (cmd : String) :
    Option (RuleEntry × String) :=
  (scan search st cmd).foldl
    (fun a e => if e.id = rid then some (e, cmd) else a) acc

/-- The most recent match recorded for `rid` over the whole window
(what `matched[rid]` holds after the tally loop). -/
def lastMatch {P : Type} (search : P → String → Bool) (st : KBState P)
    (rid : String) (recent : List String) : Option (RuleEntry × String) :=
  recent.foldl (lastMatchStep search st rid) none

/-! ## Context Log (`ctx_append` / `ctx_read` of `hint_daemon.py`)

The persisted file `unified_context.jsonl` is modelled as the list of its
lines.  Entries are flat JSON objects with string values, modelled as
association lists `List (String × String)`; `json.dumps` with
`separators=(",", ":")` and `json.loads` are modelled for the fragment
the daemon writes: objects whose keys and values contain no `"`, no `\`
and no control characters (so no escaping arises). -/

/-- `CTX_MAX` from `hint_daemon.py`: maximum lines kept in the log. -/
def CTX_MAX : Nat := 200

/-- The truncation discipline of `ctx_append`: append the new line, and
if the log now exceeds `CTX_MAX` lines keep only the last `CTX_MAX`
(`existing[-CTX_MAX:]`). -/
def ctxAppendLines (existing : List String) (line : String) : List String :=
  let ex := existing ++ [line]
  if CTX_MAX < ex.length then ex.drop (ex.length - CTX_MAX) else ex

/-- A character needing no JSON escaping: not `"`, not `\`, not a
control character. -/
def jsonPlainChar (c : Char) : Bool :=
  c != '"' && c != '\\' && decide (32 ≤ c.toNat)

/-- A string serialized verbatim by `json.dumps`. -/
def jsonPlainStr (s : String) : Bool := s.data.all jsonPlainChar

/-- An entry whose keys and values all serialize verbatim. -/
def jsonPlainEntry (e : List (String × String)) : Bool :=
  e.all (fun kv => jsonPlainStr kv.1 && jsonPlainStr kv.2)

/-- Python `",".join(parts)` at character level. -/
def joinCommaChars : List (List Char) → List Char
  | [] => []
  | [x] => x
  | x :: y :: rest => x ++ ',' :: joinCommaChars (y :: rest)

/-- One `"key":"value"` fragment of `json.dumps`, as its characters. -/
def encodeKVChars (kv : String × String) : List Char :=
  '"' :: (kv.1.data ++ ('"' :: ':' :: '"' :: (kv.2.data ++ ['"'])))

/-- `json.dumps(entry, separators=(",", ":"))` for a flat object with
string values and no escape-needing characters. -/
def encodeEntry (kvs : List (String × String)) : String :=
  ⟨'{' :: (joinCommaChars (kvs.map encodeKVChars) ++ ['}'])⟩

/-- Read the body of a JSON string literal up to the closing quote
(the opening quote already consumed); escape sequences are outside the
modelled fragment and rejected. -/
def takeStrChars : List Char → Option (List Char × List Char)
  | [] => none
  | c :: rest =>
    if c = '"' then some ([], rest)
    else if c = '\\' then none
    else
      match takeStrChars rest with
      | some (s, r) => some (c :: s, r)
      | none => none

/-- Parse one `"key":"value"` pair. -/
def parsePair (l : List Char) : Option ((String × String) × List Char) :=
  match l with
  | [] => none
  | c :: rest =>
    if c = '"' then
      match takeStrChars rest with
      | some (k, c2 :: c3 :: rest2) =>
        if c2 = ':' ∧ c3 = '"' then
          match takeStrChars rest2 with
          | some (v, rest3) => some ((⟨k⟩, ⟨v⟩), rest3)
          | none => none
        else none
      | _ => none
    else none

/-- Parse a nonempty comma-separated pair sequence closed by `}` at end
of input; `fuel` bounds the recursion (any value at least the number of
pairs suffices). -/
def parsePairsF : Nat → List Char → Option (List (String × String))
  | 0, _ => none
  | fuel + 1, l =>
    match parsePair l with
    | none => none
    | some (kv, rest) =>
      if rest = ['}'] then some [kv]
      else
        match rest with
        | c :: more =>
          if c = ',' then
            match parsePairsF fuel more with
            | some t => some (kv :: t)
            | none => none
          else none
        | [] => none

/-- `json.loads(line)` for the flat string-object fragment: parse a
whole line into an association list, `none` on anything malformed. -/
def decodeEntry (s : String) : Option (List (String × String)) :=
  match s.data with
  | [] => none
  | c :: rest =>
    if c = '{' then
      if rest = ['}'] then some []
      else parsePairsF rest.length rest
    else none

/-- `entry["ts"] = now`: overwrite the `ts` field in place, or append it
(Python dicts keep insertion order; a fresh key lands at the end). -/
def setTs (entry : List (String × String)) (ts : String) :
    List (String × String) :=
  if (entry.lookup "ts").isSome then
    entry.map (fun kv => if kv.1 = "ts" then ("ts", ts) else kv)
  else entry ++ [("ts", ts)]

/-- `ctx_append(entry)` at timestamp `ts`: stamp the entry, serialize it,
append the line and ring-trim to `CTX_MAX`. -/
def ctxAppend (lines : List String) (entry : List (String × String))
    (ts : String) : List String :=
  ctxAppendLines lines (encodeEntry (setTs entry ts))

/-- Python `l[-n:]` for `n ≥ 1`: the last `n` elements. -/
def takeLast {α : Type} (n : Nat) (l : List α) : List α :=
  l.drop (l.length - n)

/-- `ctx_read(n)`: parse the last `n` lines, skipping (not failing on)
malformed lines. -/
def ctxRead (lines : List String) (n : Nat) : List (List (String × String)) :=
  (takeLast n lines).filterMap decodeEntry

/-! ## Expert Tier result writes (`handle_tip_query` of `hint_daemon.py`)

`handle_tip_query` is modelled as the trace of externally visible file
operations it performs, as a function of the trigger file content, the
post-mortem file, backend availability and the backend call result. -/

/-- One observable file operation of `handle_tip_query`. -/
inductive TipOp where
  | unlinkQuery : TipOp
  | logCtx : String → String → TipOp
  | writeTmp : String → TipOp
  | renameTmpToResult : TipOp
  | writeResult : String → TipOp
deriving DecidableEq

/-- The environment `handle_tip_query` runs in: the content of
`tip_query.txt` (if it exists), the content of the post-mortem output
file (if it exists), whether `TIP_BACKEND` probed available, its name
and model, and the text returned by `call_ai_tip`. -/
structure TipEnv where
  query : Option String
  postMortemOut : Option String
  tipAvailable : Bool
  tipBackend : String
  tipModel : String
  callResult : String

/-- `query.strip().lower() in ("postmortem", "post-mortem", "commit message")`. -/
def isPostMortemQuery (q : String) : Bool :=
  pyLower (pyStrip q) = "postmortem" || pyLower (pyStrip q) = "post-mortem" ||
    pyLower (pyStrip q) = "commit message"

/-- `handle_tip_query()`: the file-operation trace and the returned
boolean.  Mirrors the source branch for branch: missing or empty query;
the post-mortem subcommand (temp write then rename); backend unavailable
(direct `TIP_RESULT.write_text`); the normal answer (temp write then
rename), substituting the explicit empty-result message when the backend
returned nothing. -/
def handleTipQuery (env : TipEnv) : List TipOp × Bool :=
  match env.query with
  | none => ([], false)
  | some raw =>
    let q := pyStrip raw
    if q = "" then ([TipOp.unlinkQuery], false)
    else if isPostMortemQuery q then
      let result := match env.postMortemOut with
        | some msg => "Last drafted commit message:\n\n" ++ pyStrip msg
        | none => "No post-mortem yet. Run \x27git commit ...\x27 to trigger one."
      ([TipOp.unlinkQuery, TipOp.writeTmp result, TipOp.renameTmpToResult], true)
    else
      let pre := [TipOp.unlinkQuery, TipOp.logCtx "tip_q" q]
      if !env.tipAvailable then
        (pre ++ [TipOp.writeResult
          ("[" ++ env.tipBackend ++ " not available — check config.json]")], true)
      else
        let result := if env.callResult = "" then
            "[" ++ env.tipBackend ++ ":" ++ env.tipModel ++
              " returned empty — check: hints-log]"
          else env.callResult
        (pre ++ [TipOp.logCtx "tip_a" (pyTake 300 result),
                 TipOp.writeTmp result, TipOp.renameTmpToResult], true)

/-! ## Orchestrator single-flight guards (`run` of `hint_daemon.py`)

The main loop keeps one thread handle per background tier
(`_hint_thread`, `_advisor_thread`, `_post_mortem_thread`) and spawns a
new task only when the handle is `None` or the thread is no longer
alive.  The state is modelled by the number of live tasks per tier; a
spawn is permitted only under the code guard (no live task of that
tier), a finish ends one live task.  The relation over-approximates the
remaining loop conditions (throttles, new-activity checks), which only
further restrict spawning. -/

/-- Number of in-flight background tasks per tier. -/
structure OrchState where
  hintTask : Nat
  advisorTask : Nat
  pmTask : Nat
deriving DecidableEq

/-- One observable transition of the orchestrator and its background
tasks. -/
inductive OrchStep : OrchState → OrchState → Prop where
  | spawnHint (s : OrchState) (h : s.hintTask = 0) :
      OrchStep s ⟨s.hintTask + 1, s.advisorTask, s.pmTask⟩
  | finishHint (s : OrchState) (h : 0 < s.hintTask) :
      OrchStep s ⟨s.hintTask - 1, s.advisorTask, s.pmTask⟩
  | spawnAdvisor (s : OrchState) (h : s.advisorTask = 0) :
      OrchStep s ⟨s.hintTask, s.advisorTask + 1, s.pmTask⟩
  | finishAdvisor (s : OrchState) (h : 0 < s.advisorTask) :
      OrchStep s ⟨s.hintTask, s.advisorTask - 1, s.pmTask⟩
  | spawnPostMortem (s : OrchState) (h : s.pmTask = 0) :
      OrchStep s ⟨s.hintTask, s.advisorTask, s.pmTask + 1⟩
  | finishPostMortem (s : OrchState) (h : 0 < s.pmTask) :
      OrchStep s ⟨s.hintTask, s.advisorTask, s.pmTask - 1⟩

/-- The daemon starts with no background task in flight
(all thread handles are `None`). -/
def orchInit : OrchState := ⟨0, 0, 0⟩

/-- States the orchestrator can reach by any number of iterations and
task completions. -/
def OrchReachable (s : OrchState) : Prop :=
  Relation.ReflTransGen OrchStep orchInit s

/-! ## Concrete regex-engine instances for witnesses

`re.search(pat, cmd)` for a metacharacter-free pattern succeeds exactly
when the pattern occurs as a contiguous substring; `re.compile` succeeds
on every such pattern.  These total functions instantiate the abstract
`compile`/`search` parameters in witnesses and counterexamples. -/

/-- Substring occurrence: `re.search` semantics for literal patterns. -/
def subSearch (p c : String) : Bool :=
  (List.range (c.data.length + 1)).any (fun i => p.data.isPrefixOf (c.data.drop i))

/-- `re.compile` on literal patterns: always succeeds, the compiled form
is the pattern itself. -/
def litCompile (s : String) : Option String := some s

/-- A rule bucketed under `docker` (its `cmd` token) whose literal
pattern `push` also occurs in commands of other buckets. -/
def misRule : RuleEntry := ⟨"m1", "docker", "push", "warn", "h1", "d1"⟩

/-- Engine holding only `misRule`. -/
def misState : KBState String := load litCompile [misRule]

/-- A `re.compile` model that fails on the unbalanced pattern `(`
(a `re.error` in Python) and succeeds elsewhere. -/
def cexCompile (s : String) : Option String := if s = "(" then none else some s

/-- A well-formed rule admitted by `cexCompile`. -/
def goodRule : RuleEntry := ⟨"g1", "git", "git", "tip", "h2", "d2"⟩

/-- A malformed rule: its pattern `(` fails to compile. -/
def badRule : RuleEntry := ⟨"b1", "", "(", "tip", "h3", "d3"⟩

/-- A non-highest-severity rule with an `{arg}` placeholder in its hint. -/
def tipRule : RuleEntry := ⟨"r1", "cp", "cp", "tip", "use {arg}", "d1"⟩

/-- A highest-severity (`danger`) rule. -/
def dangerRule : RuleEntry := ⟨"r2", "rm", "rm", "danger", "careful", "d2"⟩

/-- Engine holding one `tip` rule and one `danger` rule. -/
def dangerState : KBState String := load litCompile [tipRule, dangerRule]

/-! ## Helper lemmas -/

theorem containsEq_pyLower {s : String} (h : containsEq s = true) :
    containsEq (pyLower s) = true := by
  unfold containsEq at h ⊢
  unfold pyLower
  simp only [List.any_eq_true, beq_iff_eq] at h ⊢
  obtain ⟨c, hc, rfl⟩ := h
  exact ⟨'=', List.mem_map_of_mem (f := Char.toLower) hc, rfl⟩

theorem mem_bucketsGet {P : Type} {bs : List (String × List (P × RuleEntry))}
    {k : String} {x : P × RuleEntry} (h : x ∈ bucketsGet bs k) :
    x ∈ (bs.map (fun b => b.2)).flatten := by
  induction bs with
  | nil =>
    unfold bucketsGet at h
    simp [List.lookup] at h
  | cons b rest ih =>
    obtain ⟨k', l⟩ := b
    unfold bucketsGet at h
    rw [List.lookup] at h
    by_cases hk : (k == k')
    · simp only [hk, Option.getD_some] at h
      simp only [List.map_cons, List.flatten_cons, List.mem_append]
      exact Or.inl h
    · rw [Bool.not_eq_true] at hk
      simp only [hk] at h
      simp only [List.map_cons, List.flatten_cons, List.mem_append]
      exact Or.inr (ih h)

theorem mem_scan {P : Type} {search : P → String → Bool} {st : KBState P}
    {cmd : String} {e : RuleEntry} (h : e ∈ scan search st cmd) :
    ∃ pe, pe ∈ ruleList st ∧ search pe.1 (pyStrip cmd) = true ∧ e = pe.2 := by
  unfold scan at h
  by_cases hc : (pyStrip cmd).data.isEmpty
  · simp [hc] at h
  · simp only [hc, Bool.false_eq_true, if_false, List.mem_map, List.mem_filter,
      List.mem_append] at h
    obtain ⟨pe, ⟨hmem, hs⟩, rfl⟩ := h
    refine ⟨pe, ?_, hs, rfl⟩
    unfold ruleList
    rcases hmem with hb | hg
    · exact List.mem_append.mpr (Or.inl (mem_bucketsGet hb))
    · exact List.mem_append.mpr (Or.inr hg)

theorem data_isEmpty_false_of_ne {s : String} (h : s ≠ "") :
    s.data.isEmpty = false := by
  cases s with
  | mk d =>
    cases d with
    | nil => exact absurd rfl h
    | cons c cs => rfl

theorem mem_bruteForce {P : Type} {search : P → String → Bool}
    {rules : List (P × RuleEntry)} {c : String} {pe : P × RuleEntry}
    (hmem : pe ∈ rules) (hs : search pe.1 c = true) :
    pe.2 ∈ bruteForce search rules c := by
  unfold bruteForce
  exact List.mem_map_of_mem _ (List.mem_filter.mpr ⟨hmem, hs⟩)

theorem flatten_bucketsAdd_len {P : Type}
    (bs : List (String × List (P × RuleEntry))) (k : String)
    (r : P × RuleEntry) :
    ((bucketsAdd bs k r).map (fun b => b.2)).flatten.length =
      (bs.map (fun b => b.2)).flatten.length + 1 := by
  induction bs with
  | nil => simp [bucketsAdd]
  | cons b rest ih =>
    obtain ⟨k', l⟩ := b
    by_cases hk : k' = k
    · simp [bucketsAdd, hk]; omega
    · simp only [bucketsAdd, if_neg hk, List.map_cons, List.flatten_cons,
        List.length_append, ih]
      omega

theorem mem_flatten_bucketsAdd_self {P : Type}
    (bs : List (String × List (P × RuleEntry))) (k : String)
    (r : P × RuleEntry) :
    r ∈ ((bucketsAdd bs k r).map (fun b => b.2)).flatten := by
  induction bs with
  | nil => simp [bucketsAdd]
  | cons b rest ih =>
    obtain ⟨k', l⟩ := b
    by_cases hk : k' = k
    · simp [bucketsAdd, hk]
    · simp only [bucketsAdd, if_neg hk, List.map_cons, List.flatten_cons,
        List.mem_append]
      exact Or.inr ih

theorem mem_flatten_bucketsAdd_of {P : Type}
    {bs : List (String × List (P × RuleEntry))} {k : String}
    {r x : P × RuleEntry} (h : x ∈ (bs.map (fun b => b.2)).flatten) :
    x ∈ ((bucketsAdd bs k r).map (fun b => b.2)).flatten := by
  induction bs with
  | nil => simp at h
  | cons b rest ih =>
    obtain ⟨k', l⟩ := b
    simp only [List.map_cons, List.flatten_cons, List.mem_append] at h
    by_cases hk : k' = k
    · simp only [bucketsAdd, if_pos hk, List.map_cons, List.flatten_cons,
        List.mem_append, List.mem_append]
      rcases h with h | h
      · exact Or.inl (Or.inl h)
      · exact Or.inr h
    · simp only [bucketsAdd, if_neg hk, List.map_cons, List.flatten_cons,
        List.mem_append]
      rcases h with h | h
      · exact Or.inl h
      · exact Or.inr (ih h)

theorem countRules_loadStep {P : Type} (compile : String → Option P)
    (st : KBState P) (e : RuleEntry) :
    countRules (loadStep compile st e) =
      countRules st + (if (compile e.pattern).isSome then 1 else 0) := by
  unfold loadStep countRules ruleList
  cases hcp : compile e.pattern with
  | none => simp
  | some cp =>
    simp only [Option.isSome_some, if_pos]
    by_cases ha : pyIsAlpha (pyLower (pyStrip e.cmd))
    · simp only [if_pos ha, List.length_append, flatten_bucketsAdd_len]
      omega
    · simp only [if_neg ha]
      cases hpt : patternTok e.pattern with
      | some t =>
        simp only [List.length_append, flatten_bucketsAdd_len]
        omega
      | none =>
        simp only [List.length_append, List.length_cons, List.length_nil]
        omega

theorem bad_loadStep {P : Type} (compile : String → Option P)
    (st : KBState P) (e : RuleEntry) :
    (loadStep compile st e).bad =
      st.bad + (if (compile e.pattern).isSome then 0 else 1) := by
  unfold loadStep
  cases hcp : compile e.pattern with
  | none => simp
  | some cp =>
    simp only [Option.isSome_some, if_pos]
    by_cases ha : pyIsAlpha (pyLower (pyStrip e.cmd))
    · simp [if_pos ha]
    · simp only [if_neg ha]
      cases hpt : patternTok e.pattern <;> simp

theorem mem_ruleList_loadStep_of {P : Type} {compile : String → Option P}
    {st : KBState P} {e : RuleEntry} {x : P × RuleEntry}
    (h : x ∈ ruleList st) : x ∈ ruleList (loadStep compile st e) := by
  unfold ruleList at h
  unfold loadStep ruleList
  rw [List.mem_append] at h
  cases hcp : compile e.pattern with
  | none => simpa [List.mem_append] using h
  | some cp =>
    by_cases ha : pyIsAlpha (pyLower (pyStrip e.cmd))
    · simp only [if_pos ha, List.mem_append]
      rcases h with h | h
      · exact Or.inl (mem_flatten_bucketsAdd_of h)
      · exact Or.inr h
    · simp only [if_neg ha]
      cases hpt : patternTok e.pattern with
      | some t =>
        simp only [List.mem_append]
        rcases h with h | h
        · exact Or.inl (mem_flatten_bucketsAdd_of h)
        · exact Or.inr h
      | none =>
        simp only [List.mem_append, List.mem_append] at h ⊢
        rcases h with h | h
        · exact Or.inl h
        · exact Or.inr (Or.inl h)

theorem mem_ruleList_loadStep_self {P : Type} {compile : String → Option P}
    (st : KBState P) {e : RuleEntry} {cp : P}
    (h : compile e.pattern = some cp) :
    (cp, e) ∈ ruleList (loadStep compile st e) := by
  unfold loadStep ruleList
  rw [h]
  by_cases ha : pyIsAlpha (pyLower (pyStrip e.cmd))
  · simp only [if_pos ha, List.mem_append]
    exact Or.inl (mem_flatten_bucketsAdd_self _ _ _)
  · simp only [if_neg ha]
    cases hpt : patternTok e.pattern with
    | some t =>
      simp only [List.mem_append]
      exact Or.inl (mem_flatten_bucketsAdd_self _ _ _)
    | none =>
      simp only [List.mem_append, List.mem_append]
      exact Or.inr (Or.inr (List.mem_singleton.mpr rfl))

theorem load_foldl_inv {P : Type} (compile : String → Option P)
    (entries : List RuleEntry) : ∀ st : KBState P,
    countRules (entries.foldl (loadStep compile) st) =
      countRules st +
        (entries.filter (fun e => (compile e.pattern).isSome)).length ∧
    (entries.foldl (loadStep compile) st).bad =
      st.bad + (entries.filter (fun e => (compile e.pattern).isNone)).length ∧
    (∀ x, x ∈ ruleList st →
      x ∈ ruleList (entries.foldl (loadStep compile) st)) := by
  induction entries with
  | nil => intro st; exact ⟨by simp, by simp, fun x h => h⟩
  | cons e rest ih =>
    intro st
    have ihs := ih (loadStep compile st e)
    refine ⟨?_, ?_, ?_⟩
    · rw [List.foldl_cons, ihs.1, countRules_loadStep]
      by_cases hcp : (compile e.pattern).isSome
      · simp [List.filter_cons, hcp]; omega
      · simp [List.filter_cons, hcp]
    · rw [List.foldl_cons, ihs.2.1, bad_loadStep]
      by_cases hcp : (compile e.pattern).isSome
      · have : (compile e.pattern).isNone = false := by
          cases hc2 : compile e.pattern <;> simp_all
        simp [List.filter_cons, hcp, this]
      · have : (compile e.pattern).isNone = true := by
          cases hc2 : compile e.pattern <;> simp_all
        simp [List.filter_cons, hcp, this]
        omega
    · intro x hx
      rw [List.foldl_cons]
      exact ihs.2.2 x (mem_ruleList_loadStep_of hx)

theorem load_admits {P : Type} (compile : String → Option P)
    (entries : List RuleEntry) : ∀ (st : KBState P) (e : RuleEntry) (cp : P),
    e ∈ entries → compile e.pattern = some cp →
    (cp, e) ∈ ruleList (entries.foldl (loadStep compile) st) := by
  induction entries with
  | nil => intro st e cp h; exact absurd h (List.not_mem_nil e)
  | cons a rest ih =>
    intro st e cp hmem hcp
    rw [List.foldl_cons]
    rcases List.mem_cons.mp hmem with rfl | hmem'
    · exact (load_foldl_inv compile rest (loadStep compile st e)).2.2 _
        (mem_ruleList_loadStep_self st hcp)
    · exact ih (loadStep compile st a) e cp hmem' hcp

theorem lookup_setAssoc {α : Type} (m : List (String × α)) (k r : String)
    (v : α) :
    (setAssoc m k v).lookup r = if r = k then some v else m.lookup r := by
  induction m with
  | nil =>
    by_cases h : r = k
    · simp [setAssoc, List.lookup, h]
    · simp [setAssoc, List.lookup, h, beq_false_of_ne h]
  | cons kv rest ih =>
    obtain ⟨k', v'⟩ := kv
    by_cases hk : k' = k
    · subst hk
      by_cases hr : r = k'
      · simp [setAssoc, List.lookup, hr]
      · simp [setAssoc, List.lookup, hr, beq_false_of_ne hr]
    · by_cases hr : r = k'
      · subst hr
        simp [setAssoc, List.lookup, if_neg hk]
      · simp [setAssoc, List.lookup, if_neg hk, beq_false_of_ne hr, ih]

theorem lookup_tally_inner {P : Type} (search : P → String → Bool)
    (st : KBState P) (cmd rid : String) :
    ∀ (l : List RuleEntry)
      (fm : List (String × Nat) × List (String × (RuleEntry × String))),
    ((l.foldl (fun fm e => (bumpFreq fm.1 e.id, setAssoc fm.2 e.id (e, cmd)))
        fm).2).lookup rid =
      l.foldl (fun a e => if e.id = rid then some (e, cmd) else a)
        (fm.2.lookup rid) := by
  intro l
  induction l with
  | nil => intro fm; rfl
  | cons e l' ih =>
    intro fm
    rw [List.foldl_cons, List.foldl_cons, ih]
    congr 1
    rw [lookup_setAssoc]
    by_cases h : e.id = rid
    · subst h; simp
    · rw [if_neg (fun hh => h hh.symm), if_neg h]

theorem lookup_tally {P : Type} (search : P → String → Bool) (st : KBState P)
    (recent : List String) (rid : String) :
    ((tally search st recent).2).lookup rid = lastMatch search st rid recent := by
  unfold tally lastMatch
  have haux : ∀ (r : List String)
      (fm : List (String × Nat) × List (String × (RuleEntry × String))),
      ((r.foldl (tallyStep search st) fm).2).lookup rid =
        r.foldl (lastMatchStep search st rid) (fm.2.lookup rid) := by
    intro r
    induction r with
    | nil => intro fm; rfl
    | cons c r' ih =>
      intro fm
      rw [List.foldl_cons, List.foldl_cons, ih]
      congr 1
      exact lookup_tally_inner search st c rid _ fm
  exact haux recent ([], [])

theorem lastMatch_inner_spec {rid cmd : String} :
    ∀ (l : List RuleEntry) (a : Option (RuleEntry × String))
      (e : RuleEntry) (ex : String),
    l.foldl (fun a e => if e.id = rid then some (e, cmd) else a) a =
      some (e, ex) →
    a = some (e, ex) ∨ (e.id = rid ∧ ex = cmd ∧ e ∈ l) := by
  intro l
  induction l with
  | nil => intro a e ex h; exact Or.inl h
  | cons x l' ih =>
    intro a e ex h
    rw [List.foldl_cons] at h
    rcases ih _ e ex h with h' | h'
    · by_cases hx : x.id = rid
      · rw [if_pos hx] at h'
        obtain ⟨rfl, rfl⟩ : x = e ∧ cmd = ex := by
          injection h' with h2
          exact ⟨congrArg Prod.fst h2, congrArg Prod.snd h2⟩
        exact Or.inr ⟨hx, rfl, List.mem_cons_self _ _⟩
      · rw [if_neg hx] at h'
        exact Or.inl h'
    · exact Or.inr ⟨h'.1, h'.2.1, List.mem_cons_of_mem _ h'.2.2⟩

theorem lastMatch_spec {P : Type} {search : P → String → Bool}
    {st : KBState P} {rid : String} {recent : List String} {e : RuleEntry}
    {ex : String} (h : lastMatch search st rid recent = some (e, ex)) :
    e.id = rid ∧ ex ∈ recent ∧ e ∈ scan search st ex := by
  unfold lastMatch at h
  have haux : ∀ (r : List String) (a : Option (RuleEntry × String)),
      r.foldl (lastMatchStep search st rid) a = some (e, ex) →
      a = some (e, ex) ∨ (e.id = rid ∧ ex ∈ r ∧ e ∈ scan search st ex) := by
    intro r
    induction r with
    | nil => intro a h'; exact Or.inl h'
    | cons c r' ih =>
      intro a h'
      rw [List.foldl_cons] at h'
      rcases ih _ h' with h'' | h''
      · unfold lastMatchStep at h''
        rcases lastMatch_inner_spec (scan search st c) a e ex h'' with h3 | h3
        · exact Or.inl h3
        · exact Or.inr ⟨h3.1, by rw [h3.2.1]; exact List.mem_cons_self _ _,
            by rw [h3.2.1]; exact h3.2.2⟩
      · exact Or.inr ⟨h''.1, List.mem_cons_of_mem _ h''.2.1, h''.2.2⟩
  rcases haux recent none h with h' | h'
  · exact absurd h' (by simp)
  · exact h'

theorem mem_selectHints {matched : List (String × (RuleEntry × String))}
    {lastShown : List (String × Int)} {cooldown now : Int} :
    ∀ (l : List (String × Nat)) (k : Nat) (rid text : String)
      (entry : RuleEntry),
    (rid, text, entry) ∈ selectHints matched lastShown cooldown now l k →
    ∃ cnt ex, matched.lookup rid = some (entry, ex) ∧
      text = renderHint cnt entry ex ∧
      ¬(now - lastGet lastShown rid < cooldown ∧ entry.severity ≠ "danger") := by
  intro l
  induction l with
  | nil => intro k rid text entry h; simp [selectHints] at h
  | cons p rest ih =>
    intro k rid text entry h
    obtain ⟨r, cnt⟩ := p
    rw [selectHints] at h
    by_cases hk : 3 ≤ k
    · rw [if_pos hk] at h; simp at h
    · rw [if_neg hk] at h
      split at h
      · exact ih k rid text entry h
      · rename_i entry' ex' hm
        split at h
        · exact ih k rid text entry h
        · rename_i hg
          rcases List.mem_cons.mp h with h' | h'
          · have h4 : rid = r ∧ text = renderHint cnt entry' ex' ∧ entry = entry' := by
              simpa [Prod.ext_iff] using h'
            obtain ⟨rfl, h5, rfl⟩ := h4
            exact ⟨cnt, ex', hm, h5, hg⟩
          · exact ih (k + 1) rid text entry h'

theorem selectHints_congr {matched : List (String × (RuleEntry × String))}
    {cooldown now : Int} {m m' : List (String × Int)}
    (hagree : ∀ rid e ex, matched.lookup rid = some (e, ex) →
      e.severity ≠ "danger" → lastGet m rid = lastGet m' rid) :
    ∀ (l : List (String × Nat)) (k : Nat),
    selectHints matched m cooldown now l k =
      selectHints matched m' cooldown now l k := by
  intro l
  induction l with
  | nil => intro k; rfl
  | cons p rest ih =>
    intro k
    obtain ⟨r, cnt⟩ := p
    rw [selectHints, selectHints]
    by_cases hk : 3 ≤ k
    · rw [if_pos hk, if_pos hk]
    · rw [if_neg hk, if_neg hk]
      cases hm : matched.lookup r with
      | none => dsimp only; exact ih k
      | some pe =>
        obtain ⟨entry, ex⟩ := pe
        dsimp only
        by_cases hd : entry.severity = "danger"
        · have hg : ¬(now - lastGet m r < cooldown ∧ entry.severity ≠ "danger") :=
            fun hh => hh.2 hd
          have hg' : ¬(now - lastGet m' r < cooldown ∧ entry.severity ≠ "danger") :=
            fun hh => hh.2 hd
          rw [if_neg hg, if_neg hg', ih (k + 1)]
        · have heq := hagree r entry ex hm hd
          rw [heq]
          by_cases hg : now - lastGet m' r < cooldown ∧ entry.severity ≠ "danger"
          · rw [if_pos hg, if_pos hg]
            exact ih k
          · rw [if_neg hg, if_neg hg, ih (k + 1)]

theorem orch_inv {s : OrchState} (h : OrchReachable s) :
    s.hintTask ≤ 1 ∧ s.advisorTask ≤ 1 ∧ s.pmTask ≤ 1 := by
  induction h with
  | refl => exact ⟨Nat.zero_le 1, Nat.zero_le 1, Nat.zero_le 1⟩
  | tail _ hstep ih =>
    cases hstep with
    | spawnHint h => exact ⟨by simp [h], ih.2.1, ih.2.2⟩
    | finishHint h => exact ⟨by have h1 := ih.1; simp; omega, ih.2.1, ih.2.2⟩
    | spawnAdvisor h => exact ⟨ih.1, by simp [h], ih.2.2⟩
    | finishAdvisor h => exact ⟨ih.1, by have h1 := ih.2.1; simp; omega, ih.2.2⟩
    | spawnPostMortem h => exact ⟨ih.1, ih.2.1, by simp [h]⟩
    | finishPostMortem h => exact ⟨ih.1, ih.2.1, by have h1 := ih.2.2; simp; omega⟩

theorem decodeEntry_cons (c : Char) (rest : List Char) :
    decodeEntry ⟨c :: rest⟩ =
      if c = '{' then
        if rest = ['}'] then some [] else parsePairsF rest.length rest
      else none := rfl

theorem takeStrChars_plain : ∀ (l rest : List Char),
    (∀ c ∈ l, jsonPlainChar c = true) →
    takeStrChars (l ++ '"' :: rest) = some (l, rest) := by
  intro l
  induction l with
  | nil =>
    intro rest _
    simp [takeStrChars]
  | cons c l' ih =>
    intro rest h
    have hc := h c (List.mem_cons_self _ _)
    simp only [jsonPlainChar, Bool.and_eq_true, bne_iff_ne, ne_eq,
      decide_eq_true_eq] at hc
    rw [List.cons_append, takeStrChars, if_neg hc.1.1, if_neg hc.1.2,
      ih rest (fun d hd => h d (List.mem_cons_of_mem _ hd))]

theorem parsePair_encodeKV (k v : String) (rest : List Char)
    (hk : jsonPlainStr k = true) (hv : jsonPlainStr v = true) :
    parsePair (encodeKVChars (k, v) ++ rest) = some ((k, v), rest) := by
  have hk' : ∀ c ∈ k.data, jsonPlainChar c = true := by
    rw [jsonPlainStr, List.all_eq_true] at hk
    exact hk
  have hv' : ∀ c ∈ v.data, jsonPlainChar c = true := by
    rw [jsonPlainStr, List.all_eq_true] at hv
    exact hv
  have hshape : encodeKVChars (k, v) ++ rest =
      '"' :: (k.data ++ ('"' :: ':' :: '"' :: (v.data ++ '"' :: rest))) := by
    simp [encodeKVChars]
  rw [hshape, parsePair, if_pos rfl, takeStrChars_plain k.data _ hk']
  dsimp only
  rw [if_pos ⟨rfl, rfl⟩, takeStrChars_plain v.data _ hv']

theorem len_le_joinCommaChars (kvs : List (String × String)) :
    kvs.length ≤ (joinCommaChars (kvs.map encodeKVChars)).length + 1 := by
  induction kvs with
  | nil => simp [joinCommaChars]
  | cons kv t ih =>
    cases t with
    | nil => simp [joinCommaChars]
    | cons kv2 t2 =>
      rw [List.map_cons, List.map_cons, joinCommaChars]
      rw [List.map_cons] at ih
      simp only [List.length_append, List.length_cons] at ih ⊢
      omega

theorem parsePairsF_encode : ∀ (kvs : List (String × String)) (fuel : Nat),
    jsonPlainEntry kvs = true → kvs.length ≤ fuel → kvs ≠ [] →
    parsePairsF fuel (joinCommaChars (kvs.map encodeKVChars) ++ ['}']) =
      some kvs := by
  intro kvs
  induction kvs with
  | nil => intro fuel _ _ hne; exact absurd rfl hne
  | cons kv t ih =>
    intro fuel hplain hlen _
    obtain ⟨k, v⟩ := kv
    have hkv : jsonPlainStr k = true ∧ jsonPlainStr v = true := by
      rw [jsonPlainEntry, List.all_cons, Bool.and_eq_true] at hplain
      exact Bool.and_eq_true_iff.mp hplain.1
    cases fuel with
    | zero => simp at hlen
    | succ f =>
      cases t with
      | nil =>
        rw [List.map_cons, List.map_nil, joinCommaChars, parsePairsF,
          parsePair_encodeKV k v ['}'] hkv.1 hkv.2]
        dsimp only
        rw [if_pos rfl]
      | cons kv2 t2 =>
        rw [List.map_cons, List.map_cons, joinCommaChars, List.append_assoc,
          List.cons_append, parsePairsF,
          parsePair_encodeKV k v _ hkv.1 hkv.2]
        dsimp only
        rw [if_neg (by simp), if_pos rfl]
        have hplain2 : jsonPlainEntry (kv2 :: t2) = true := by
          rw [jsonPlainEntry, List.all_cons, Bool.and_eq_true] at hplain
          exact hplain.2
        have hlen2 : (kv2 :: t2).length ≤ f := by
          simp only [List.length_cons] at hlen ⊢
          omega
        have hih := ih f hplain2 hlen2 (by simp)
        rw [List.map_cons] at hih
        rw [hih]

theorem decode_encode (kvs : List (String × String))
    (h : jsonPlainEntry kvs = true) :
    decodeEntry (encodeEntry kvs) = some kvs := by
  cases kvs with
  | nil => decide
  | cons kv t =>
    obtain ⟨k, v⟩ := kv
    have hhead : ∃ T, joinCommaChars (((k, v) :: t).map encodeKVChars) =
        '"' :: T := by
      cases t with
      | nil => exact ⟨_, rfl⟩
      | cons kv2 t2 =>
        exact ⟨_, by rw [List.map_cons, List.map_cons, joinCommaChars,
          encodeKVChars, List.cons_append]⟩
    obtain ⟨T, hT⟩ := hhead
    unfold encodeEntry
    rw [decodeEntry_cons, if_pos rfl, if_neg (by rw [hT]; simp)]
    refine parsePairsF_encode _ _ h ?_ (by simp)
    have hle := len_le_joinCommaChars ((k, v) :: t)
    simp only [List.length_cons] at hle
    simp only [List.length_append, List.length_cons, List.length_nil]
    omega

theorem setTs_plain {entry : List (String × String)} {ts : String}
    (he : jsonPlainEntry entry = true) (hts : jsonPlainStr ts = true) :
    jsonPlainEntry (setTs entry ts) = true := by
  have htskey : jsonPlainStr "ts" = true := by decide
  unfold setTs
  by_cases h : (entry.lookup "ts").isSome
  · rw [if_pos h]
    rw [jsonPlainEntry, List.all_eq_true] at he ⊢
    intro kv hkv
    rw [List.mem_map] at hkv
    obtain ⟨kv0, hkv0, rfl⟩ := hkv
    by_cases hk : kv0.1 = "ts"
    · simp only [if_pos hk, Bool.and_eq_true]
      exact ⟨htskey, hts⟩
    · simp only [if_neg hk]
      exact he kv0 hkv0
  · rw [if_neg h]
    rw [jsonPlainEntry, List.all_append]
    rw [jsonPlainEntry] at he
    rw [he]
    simp [htskey, hts]

theorem takeLast_one_append (M : List String) (x : String) :
    takeLast 1 (M ++ [x]) = [x] := by
  unfold takeLast
  have hl : (M ++ [x]).length - 1 = M.length := by simp
  rw [hl, List.drop_left]

theorem ctxAppendLines_shape (L : List String) (line : String) :
    ∃ M, ctxAppendLines L line = M ++ [line] := by
  unfold ctxAppendLines
  by_cases h : CTX_MAX < (L ++ [line]).length
  · rw [if_pos h]
    refine ⟨L.drop ((L ++ [line]).length - CTX_MAX), ?_⟩
    rw [List.drop_append_eq_append_drop]
    congr 1
    have h0 : (L ++ [line]).length - CTX_MAX - L.length = 0 := by
      simp only [List.length_append, List.length_cons, List.length_nil,
        CTX_MAX]
      omega
    rw [h0, List.drop_zero]
  · exact ⟨L, by rw [if_neg h]⟩

/-! ## Claim theorems -/

/-- C4: for every sequence of `ctx_append` calls, after each call the
persisted Context Log holds at most `CTX_MAX = 200` lines: whatever the
prior state of the log, appending one line yields exactly
`min (previous + 1) CTX_MAX` lines, and the kept lines are a suffix of
the appended log, i.e. only the most recent entries survive ring
truncation. -/
theorem C4_ctx_ring_invariant (lines : List String) (line : String) :
    (ctxAppendLines lines line).length ≤ CTX_MAX ∧
    (ctxAppendLines lines line).length = min (lines.length + 1) CTX_MAX ∧
    (ctxAppendLines lines line).IsSuffix (lines ++ [line]) := by
  unfold ctxAppendLines
  by_cases h : CTX_MAX < (lines ++ [line]).length
  · rw [if_pos h]
    simp only [List.length_append, List.length_cons, List.length_nil] at h
    refine ⟨?_, ?_, List.drop_suffix _ _⟩
    · rw [List.length_drop]; omega
    · rw [List.length_drop]; simp only [List.length_append, List.length_cons,
        List.length_nil]; omega
  · rw [if_neg h]
    simp only [List.length_append, List.length_cons, List.length_nil] at h
    refine ⟨?_, ?_, List.suffix_refl _⟩
    · simp only [List.length_append, List.length_cons, List.length_nil]; omega
    · simp only [List.length_append, List.length_cons, List.length_nil]; omega

/-- C7: the bucketing token of `KBEngine.scan` is the command's leading
token lowercased; if the command is prefixed by `sudo` (and has a second
token) the following token is used instead; if the chosen token is an
environment-variable assignment (contains `=`), the first token of the
command containing no `=` is used; and the concrete command
`sudo git commit -m "x"` resolves to `git`, not `sudo`. -/
theorem C7_bucket_token :
    (∀ t0 rest, pyLower t0 ≠ "sudo" → containsEq (pyLower t0) = false →
        extractToken (t0 :: rest) = pyLower t0)
    ∧ (∀ t0 r rest, pyLower t0 = "sudo" → containsEq (pyLower r) = false →
        extractToken (t0 :: r :: rest) = pyLower r)
    ∧ (∀ t0 rest p, containsEq t0 = true →
        (t0 :: rest).find? (fun q => !containsEq q) = some p →
        extractToken (t0 :: rest) = pyLower p)
    ∧ (∀ t0 r rest p, pyLower t0 = "sudo" → containsEq r = true →
        (t0 :: r :: rest).find? (fun q => !containsEq q) = some p →
        extractToken (t0 :: r :: rest) = pyLower p)
    ∧ extractToken (pyWords (pyStrip "sudo git commit -m \"x\"")) = "git" := by
  refine ⟨?_, ?_, ?_, ?_, by decide⟩
  · intro t0 rest hsudo heq
    cases rest with
    | nil => simp [extractToken, heq]
    | cons r rs => simp [extractToken, hsudo, heq]
  · intro t0 r rest hsudo heq
    simp [extractToken, hsudo, heq]
  · intro t0 rest p heq hfind
    have hlow := containsEq_pyLower heq
    have hsudo : pyLower t0 ≠ "sudo" := by
      intro hcon
      rw [hcon] at hlow
      exact absurd hlow (by decide)
    cases rest with
    | nil => simp [extractToken, hlow, hfind]
    | cons r rs => simp [extractToken, hsudo, hlow, hfind]
  · intro t0 r rest p hsudo heq hfind
    have hlow := containsEq_pyLower heq
    simp [extractToken, hsudo, hlow, hfind]

theorem C7_witness :
    extractToken ["git", "push"] = "git" ∧
    extractToken (pyWords (pyStrip "sudo git commit -m \"x\"")) = "git" :=
  ⟨C7_bucket_token.1 "git" ["push"] (by decide) (by decide),
   C7_bucket_token.2.2.2.2⟩

/-- C10: `scan` is total by construction (a Lean function on all of
`String`), returns the empty list on every command that is empty or
whitespace-only — for every engine state, so no bucket is consulted —
and only ever returns rules loaded in the engine. -/
theorem C10_scan_total {P : Type} (search : P → String → Bool)
    (st : KBState P) (cmd : String) :
    (pyStrip cmd = "" → scan search st cmd = []) ∧
    (∀ e ∈ scan search st cmd, e ∈ (ruleList st).map (fun pe => pe.2)) := by
  constructor
  · intro h
    unfold scan
    rw [h]
    rfl
  · intro e he
    obtain ⟨pe, hmem, _, rfl⟩ := mem_scan he
    exact List.mem_map_of_mem _ hmem

theorem C10_witness :
    scan subSearch (⟨[], [], 0⟩ : KBState String) "  \t " = [] :=
  (C10_scan_total subSearch ⟨[], [], 0⟩ "  \t ").1 (by decide)

/-- C3: in every reachable state of the orchestrator's step relation, at
most one ambient-hint background task and at most one Advisor Tier
background task are in flight, no matter how many main-loop iterations
occur while a prior task of that tier is still running. -/
theorem C3_single_flight (s : OrchState) (h : OrchReachable s) :
    s.hintTask ≤ 1 ∧ s.advisorTask ≤ 1 :=
  ⟨(orch_inv h).1, (orch_inv h).2.1⟩

theorem C3_witness :
    (⟨1, 1, 0⟩ : OrchState).hintTask ≤ 1 ∧
    (⟨1, 1, 0⟩ : OrchState).advisorTask ≤ 1 :=
  C3_single_flight ⟨1, 1, 0⟩
    (Relation.ReflTransGen.tail
      (Relation.ReflTransGen.tail Relation.ReflTransGen.refl
        (OrchStep.spawnHint orchInit rfl))
      (OrchStep.spawnAdvisor ⟨1, 0, 0⟩ rfl))

/-- C1 (as stated) is false: on the corpus holding only `misRule` —
bucketed under its declared `cmd` token `docker` — the bucketed
dispatcher returns no match for `git push`, while brute-force evaluation
of every compiled pattern in the corpus matches, since the literal
pattern `push` occurs in the command.  Bucketing is therefore a semantic
filter, not only a performance optimization. -/
theorem C1_counterexample :
    scan subSearch misState "git push" = [] ∧
    bruteForce subSearch (ruleList misState) (pyStrip "git push") = [misRule] ∧
    scan subSearch misState "git push" ≠
      bruteForce subSearch (ruleList misState) (pyStrip "git push") := by
  refine ⟨by decide, by decide, by decide⟩

/-- C1 (amended): the bucketed `scan` always returns a subset of the
brute-force matches over the full loaded corpus (bucketing never adds
matches), and for every nonempty stripped command it returns exactly the
brute-force matches over the candidate rules it consults — the command
token's bucket followed by the generic bucket.  Full equality with the
whole corpus fails when a matching rule lives in another bucket. -/
theorem C1_scan_refines_bruteforce {P : Type} (search : P → String → Bool)
    (st : KBState P) (cmd : String) :
    (∀ e ∈ scan search st cmd,
      e ∈ bruteForce search (ruleList st) (pyStrip cmd)) ∧
    (pyStrip cmd ≠ "" →
      scan search st cmd =
        bruteForce search
          (bucketsGet st.buckets (extractToken (pyWords (pyStrip cmd))) ++
            st.generic)
          (pyStrip cmd)) := by
  constructor
  · intro e he
    obtain ⟨pe, hmem, hs, rfl⟩ := mem_scan he
    exact mem_bruteForce hmem hs
  · intro h
    simp [scan, bruteForce, data_isEmpty_false_of_ne h]

theorem C1_witness :
    scan subSearch misState "git push" =
      bruteForce subSearch
        (bucketsGet misState.buckets
          (extractToken (pyWords (pyStrip "git push"))) ++ misState.generic)
        (pyStrip "git push") :=
  (C1_scan_refines_bruteforce subSearch misState "git push").2 (by decide)

/-- C5: `load` never aborts on a malformed rule — it is a total fold over
the corpus — and for every corpus: the skipped-pattern counter equals the
number of rules whose pattern fails to compile, the number of admitted
rules equals the number of rules whose pattern compiles, and every rule
whose pattern compiles is admitted into the engine (bucket or generic). -/
theorem C5_load_skips_malformed {P : Type} (compile : String → Option P)
    (entries : List RuleEntry) :
    (load compile entries).bad =
      (entries.filter (fun e => (compile e.pattern).isNone)).length ∧
    countRules (load compile entries) =
      (entries.filter (fun e => (compile e.pattern).isSome)).length ∧
    (∀ e ∈ entries, ∀ cp, compile e.pattern = some cp →
      e ∈ (ruleList (load compile entries)).map (fun pe => pe.2)) := by
  have hinv := load_foldl_inv compile entries ⟨[], [], 0⟩
  refine ⟨?_, ?_, ?_⟩
  · rw [load, hinv.2.1]
    simp
  · rw [load, hinv.1]
    simp [countRules, ruleList]
  · intro e he cp hcp
    exact List.mem_map_of_mem _ (load_admits compile entries ⟨[], [], 0⟩ e cp he hcp)

/-- C2: for every rule id all of whose corpus rules are of non-highest
severity, if the id's last-shown timestamp is within the cooldown window
then `get_hints` never includes the id in its output; and the output is
entirely independent of the last-shown timestamps of rule ids whose
matching rules are all of the highest severity class (`danger`), so a
`danger` rule surfaces regardless of how recently it was shown. -/
theorem C2_cooldown_suppression {P : Type} (search : P → String → Bool)
    (st : KBState P) (recent : List String) (cooldown now : Int) :
    (∀ (lastShown : List (String × Int)) (rid : String),
      (∀ e ∈ (ruleList st).map (fun pe => pe.2),
        e.id = rid → e.severity ≠ "danger") →
      now - lastGet lastShown rid < cooldown →
      rid ∉ (getHints search st recent lastShown cooldown now).map
        (fun x => x.1)) ∧
    (∀ m m' : List (String × Int),
      (∀ rid : String,
        (∃ e, e ∈ (ruleList st).map (fun pe => pe.2) ∧ e.id = rid ∧
          e.severity ≠ "danger") →
        lastGet m rid = lastGet m' rid) →
      getHints search st recent m cooldown now =
        getHints search st recent m' cooldown now) := by
  constructor
  · intro lastShown rid hcorp hwithin hmem
    rw [List.mem_map] at hmem
    obtain ⟨x, hx, hfst⟩ := hmem
    obtain ⟨r0, text, entry⟩ := x
    have hr0 : r0 = rid := hfst
    subst hr0
    simp only [getHints] at hx
    obtain ⟨cnt, ex, hm, htext, hguard⟩ := mem_selectHints _ _ _ _ _ hx
    rw [lookup_tally] at hm
    obtain ⟨hid, hexmem, hescan⟩ := lastMatch_spec hm
    obtain ⟨pe, hpemem, hsearch, rfl⟩ := mem_scan hescan
    have hsev := hcorp pe.2 (List.mem_map_of_mem _ hpemem) hid
    exact hguard ⟨hwithin, hsev⟩
  · intro m m' hag
    simp only [getHints]
    apply selectHints_congr
    intro rid e ex hm hsev
    rw [lookup_tally] at hm
    obtain ⟨hid, _, hescan⟩ := lastMatch_spec hm
    obtain ⟨pe, hpemem, _, rfl⟩ := mem_scan hescan
    exact hag rid ⟨pe.2, List.mem_map_of_mem _ hpemem, hid, hsev⟩

theorem C2_witness :
    ("r1" ∉ (getHints subSearch dangerState ["cp a b", "rm -rf /"]
        [("r1", 100), ("r2", 100)] 120 110).map (fun x => x.1)) ∧
    getHints subSearch dangerState ["cp a b", "rm -rf /"]
        [("r1", 100), ("r2", 100)] 120 110 =
      getHints subSearch dangerState ["cp a b", "rm -rf /"]
        [("r1", 100), ("r2", 0)] 120 110 := by
  constructor
  · exact (C2_cooldown_suppression subSearch dangerState
      ["cp a b", "rm -rf /"] 120 110).1
      [("r1", 100), ("r2", 100)] "r1" (by decide) (by decide)
  · apply (C2_cooldown_suppression subSearch dangerState
      ["cp a b", "rm -rf /"] 120 110).2
    intro rid he
    obtain ⟨e, hmem, hid, hsev⟩ := he
    have hl : (ruleList dangerState).map (fun pe => pe.2) =
        [tipRule, dangerRule] := by decide
    rw [hl] at hmem
    rcases List.mem_cons.mp hmem with rfl | hmem2
    · have h9 : rid = "r1" := hid.symm.trans rfl
      subst h9
      decide
    · rcases List.mem_singleton.mp hmem2 with rfl
      exact absurd (by decide : dangerRule.severity = "danger") hsev

/-- C6 (as stated) is false: when the configured Expert Tier backend is
unavailable, `handle_tip_query` writes the explicit unavailability
message directly to the result target (`TIP_RESULT.write_text`), with no
temporary file and no rename — only the post-mortem subcommand and the
normal answer use the temp-then-rename pattern. -/
theorem C6_counterexample :
    TipOp.writeResult "[copilot not available — check config.json]" ∈
      (handleTipQuery ⟨some "how do I list files", none, false, "copilot",
        "gpt-4.1", ""⟩).1 ∧
    TipOp.renameTmpToResult ∉
      (handleTipQuery ⟨some "how do I list files", none, false, "copilot",
        "gpt-4.1", ""⟩).1 :=
  ⟨by decide, by decide⟩

/-- C6 (amended): for every nonempty query, the post-mortem subcommand
result and the normal answer (including the explicit empty-result
message) are written via write-to-temporary-then-rename, with no direct
write of the target; the backend-unavailable message, however, is
written directly to the target path with no temporary write and no
rename. -/
theorem C6_result_write_discipline (env : TipEnv) (raw : String)
    (hq : env.query = some raw) (hne : pyStrip raw ≠ "") :
    (isPostMortemQuery (pyStrip raw) = true →
      ∃ r, (handleTipQuery env).1 =
        [TipOp.unlinkQuery, TipOp.writeTmp r, TipOp.renameTmpToResult]) ∧
    (isPostMortemQuery (pyStrip raw) = false → env.tipAvailable = true →
      ∃ r, (handleTipQuery env).1 =
        [TipOp.unlinkQuery, TipOp.logCtx "tip_q" (pyStrip raw),
         TipOp.logCtx "tip_a" (pyTake 300 r), TipOp.writeTmp r,
         TipOp.renameTmpToResult] ∧
        (∀ c, TipOp.writeResult c ∉ (handleTipQuery env).1)) ∧
    (isPostMortemQuery (pyStrip raw) = false → env.tipAvailable = false →
      (∃ c, TipOp.writeResult c ∈ (handleTipQuery env).1) ∧
      TipOp.renameTmpToResult ∉ (handleTipQuery env).1 ∧
      (∀ r, TipOp.writeTmp r ∉ (handleTipQuery env).1)) := by
  refine ⟨fun hpm => ?_, fun hpm hav => ?_, fun hpm hav => ?_⟩
  · simp only [handleTipQuery, hq, if_neg hne, hpm, if_pos]
    exact ⟨_, rfl⟩
  · simp only [handleTipQuery, hq, if_neg hne, hpm, Bool.false_eq_true,
      if_false, hav, Bool.not_true]
    exact ⟨_, rfl, fun c => by simp⟩
  · simp only [handleTipQuery, hq, if_neg hne, hpm, Bool.false_eq_true,
      if_false, hav, Bool.not_false, if_pos]
    refine ⟨⟨"[" ++ env.tipBackend ++ " not available — check config.json]",
      ?_⟩, by simp, fun r => by simp⟩
    simp

theorem C6_witness :
    ∃ r, (handleTipQuery ⟨some "how do I x", none, true, "copilot",
        "gpt-4.1", "Use ls -la"⟩).1 =
      [TipOp.unlinkQuery, TipOp.logCtx "tip_q" (pyStrip "how do I x"),
       TipOp.logCtx "tip_a" (pyTake 300 r), TipOp.writeTmp r,
       TipOp.renameTmpToResult] ∧
      (∀ c, TipOp.writeResult c ∉ (handleTipQuery ⟨some "how do I x", none,
        true, "copilot", "gpt-4.1", "Use ls -la"⟩).1) :=
  (C6_result_write_discipline ⟨some "how do I x", none, true, "copilot",
      "gpt-4.1", "Use ls -la"⟩ "how do I x" rfl (by decide)).2.1
    (by decide) rfl

/-- C9 (as stated) is false: for the rule whose hint holds the `{arg}`
placeholder, the rendered hint for the matching command `cp a b`
substitutes the whole remainder of the command after its leading token
(`a b`), not only the first argument token (`a`). -/
theorem C9_counterexample :
    getHints subSearch dangerState ["cp a b"] [] 120 1000 =
      [("r1", "-> [1x] use a b", tipRule)] ∧
    ("-> [1x] use a b" : String) ≠ "-> [1x] use a" :=
  ⟨by decide, by decide⟩

/-- C9 (amended): every surfaced hint text is rendered from the most
recent command of the window that matched the rule (the last match the
tally loop recorded), substituting the `{arg}` placeholder with the
remainder of that command after its leading token — the full argument
text, not only the first argument token — truncated to 40 characters
(`...` when empty), as `renderHint`/`hintArg` define. -/
theorem C9_arg_substitution {P : Type} (search : P → String → Bool)
    (st : KBState P) (recent : List String) (lastShown : List (String × Int))
    (cooldown now : Int) (rid text : String) (entry : RuleEntry)
    (h : (rid, text, entry) ∈ getHints search st recent lastShown cooldown now) :
    ∃ cnt ex, lastMatch search st rid recent = some (entry, ex) ∧
      ex ∈ recent ∧ entry ∈ scan search st ex ∧
      text = renderHint cnt entry ex := by
  simp only [getHints] at h
  obtain ⟨cnt, ex, hm, htext, _⟩ := mem_selectHints _ _ _ _ _ h
  rw [lookup_tally] at hm
  obtain ⟨_, hexmem, hescan⟩ := lastMatch_spec hm
  exact ⟨cnt, ex, hm, hexmem, hescan, htext⟩

theorem C9_witness :
    ∃ cnt ex, lastMatch subSearch dangerState "r1" ["cp a b"] =
        some (tipRule, ex) ∧
      ex ∈ ["cp a b"] ∧ tipRule ∈ scan subSearch dangerState ex ∧
      ("-> [1x] use a b" : String) = renderHint cnt tipRule ex :=
  C9_arg_substitution subSearch dangerState ["cp a b"] [] 120 1000 "r1"
    "-> [1x] use a b" tipRule (by decide)

theorem C5_witness :
    (load cexCompile [goodRule, badRule]).bad = 1 ∧
    countRules (load cexCompile [goodRule, badRule]) = 1 ∧
    goodRule ∈ (ruleList (load cexCompile [goodRule, badRule])).map
      (fun pe => pe.2) :=
  ⟨((C5_load_skips_malformed cexCompile [goodRule, badRule]).1).trans (by decide),
   ((C5_load_skips_malformed cexCompile [goodRule, badRule]).2.1).trans (by decide),
   (C5_load_skips_malformed cexCompile [goodRule, badRule]).2.2 goodRule
     (by decide) "git" (by decide)⟩

/-- C8: for every entry in the modelled JSON fragment (flat string
fields with no escape-needing characters), `ctx_append(entry)` followed
immediately by reading the last entry of the Context Log from the same
process yields exactly the appended entry, with its timestamp field —
for any prior state of the log, since ring truncation keeps the newest
line and `ctx_read` parses it back. -/
theorem C8_append_read_roundtrip (lines : List String)
    (entry : List (String × String)) (ts : String)
    (he : jsonPlainEntry entry = true) (hts : jsonPlainStr ts = true) :
    ctxRead (ctxAppend lines entry ts) 1 = [setTs entry ts] := by
  obtain ⟨M, hM⟩ := ctxAppendLines_shape lines (encodeEntry (setTs entry ts))
  unfold ctxAppend ctxRead
  rw [hM, takeLast_one_append]
  have hdec := decode_encode (setTs entry ts) (setTs_plain he hts)
  simp [List.filterMap_cons, hdec]

theorem C8_witness :
    ctxRead (ctxAppend ["old line"] [("type", "cmd"), ("cmd", "ls")]
      "09:00:00") 1 =
      [[("type", "cmd"), ("cmd", "ls"), ("ts", "09:00:00")]] :=
  (C8_append_read_roundtrip ["old line"] [("type", "cmd"), ("cmd", "ls")]
    "09:00:00" (by decide) (by decide)).trans (by decide)

end ShellBuddy
